import Mathlib

/-!
Verification of the reconciliation engine of `src/main.py` (gh-manager).

The Python source is shallowly embedded: every function is translated into a
computable Lean definition.  Remote GitHub state (`org`) is an explicit
value; reads are total lookups returning `Option`, a Python exception that
the source catches is modelled by the `none` branch, and an uncaught
exception is modelled by `Except.error`.  Python `set`s whose iteration
order is unspecified (membership diffs) are modelled as `Finset`s; Python
`dict`s (insertion ordered) and lists are modelled as `List`s.  Mutating
remote calls are recorded explicitly (`RemoteCall`); a function that the
source writes without any mutating call is embedded as a pure function.
-/

namespace GhManager

deriving instance DecidableEq for Except

/-- A team entry of `config.yaml` (`teams:` list): `name`, optional
`maintainers`/`members` (absent keys are read with default `[]`, so plain
lists here) and optional `parent`. -/
structure TeamSpec where
  name : String
  maintainers : List String
  members : List String
  parent : Option String
  deriving DecidableEq

/-- Observed remote team, as read through `org.get_team_by_slug`:
`privacy`, the parent team (identified by slug) and the member logins
(`get_members`, a set). -/
structure RemoteTeam where
  privacy : String
  parent : Option String
  members : Finset String
  deriving DecidableEq

/-- Observed remote repository: `repo.get_teams()` as an association list
of (team name, current permission). -/
structure RemoteRepo where
  teams : List (String × String)
  deriving DecidableEq

/-- The remote organization: total lookup functions for teams
(`get_team_by_slug`) and repositories (`get_repo`); `none` models the
exception the source catches as "not found". -/
structure Org where
  teams : String → Option RemoteTeam
  repos : String → Option RemoteRepo

/-- One entry of the team `ChangeSet` (`changes[...]` strings of
`create_or_update_team`), carried structurally: the constructor is the
message template, the fields are the interpolated data. -/
inductive TeamAction where
  | updateExisting (team : String)
  | wouldChangeVisibility (team : String)
  | changeVisibility (team : String)
  | setParent (team parent : String)
  | createTeam (team : String)
  | addMember (team member role : String)
  | removeMember (team member : String)
  deriving DecidableEq

/-- One entry of the repository `ChangeSet` of
`process_repository_permissions`, carried structurally. -/
inductive RepoAction where
  | addTeam (team repo perm : String)
  | updatePerm (team repo fromPerm toPerm : String)
  | removeTeam (team repo : String)
  | repoNotFound (repo : String)
  | teamError (team repo : String)
  deriving DecidableEq

/-- A mutating remote call issued by the engine. -/
inductive RemoteCall where
  | grantRepoPerm (team repo perm : String)
  | removeFromRepo (team repo : String)
  | removeMembership (team user : String)
  deriving DecidableEq

/-- A line printed by the unlisted-user sweep. -/
inductive SweepNote where
  | removed (user team : String)
  | failed (user team : String)
  deriving DecidableEq

/-- The `defaultdict(list)` change set of `create_or_update_team`.
`create`/`update` are appended deterministically (lists); `add`/`remove`
are produced by iterating Python sets whose order is unspecified, so they
are `Finset`s. -/
structure TeamChanges where
  create : List TeamAction
  update : List TeamAction
  add : Finset TeamAction
  remove : Finset TeamAction
  deriving DecidableEq

/-- The change set of `process_repository_permissions` (all four
categories appended in deterministic dict/list order). -/
structure RepoChanges where
  add : List RepoAction
  update : List RepoAction
  remove : List RepoAction
  error : List RepoAction
  deriving DecidableEq

/-- The empty `defaultdict(list)` for repository changes. -/
def RepoChanges.initial : RepoChanges :=
  { add := [], update := [], remove := [], error := [] }

/-- `translate_permission` (nested in `process_repository_permissions`):
`read → pull`, `write → push`, anything else unchanged. -/
def translate_permission (perm : String) : String :=
  if perm = ("read") then ("pull")
  else if perm = ("write") then ("push")
  else perm

/-- Association-list lookup used to model Python dict membership/indexing
(`current_teams[team_name]`, `team_name in team_permissions`). -/
def lookupPerm (l : List (String × String)) (k : String) : Option String :=
  (l.find? (fun p => p.1 == k)).map (fun p => p.2)

/-- Body of the first loop of `process_repository_permissions` (over the
desired `team_permissions.items()`): look the team up (failure is caught
as an `error` entry), record `add`/`update`, and in live mode issue the
`update_team_repository` call unconditionally. -/
def repo_perm_step1 (org : Org) (repo_name : String)
    (current_teams : List (String × String)) (dry_run : Bool)
    (acc : RepoChanges × List RemoteCall) (tp : String × String) :
    RepoChanges × List RemoteCall :=
  let changes := acc.1
  let calls := acc.2
  let team_name := tp.1
  let permission := tp.2
  match org.teams team_name with
  | none =>
      ({ changes with error := changes.error ++ [RepoAction.teamError team_name repo_name] }, calls)
  | some _ =>
      let github_permission := translate_permission permission
      let changes :=
        match lookupPerm current_teams team_name with
        | none =>
            { changes with add := changes.add ++ [RepoAction.addTeam team_name repo_name permission] }
        | some cur =>
            if cur ≠ github_permission then
              { changes with update := changes.update ++ [RepoAction.updatePerm team_name repo_name cur permission] }
            else changes
      if dry_run then (changes, calls)
      else (changes, calls ++ [RemoteCall.grantRepoPerm team_name repo_name github_permission])

/-- Body of the second loop of `process_repository_permissions` (over the
current grants): record `remove` for teams absent from the desired dict
and, in live mode, look the team up (this lookup is *outside* any
`try`, so a failure propagates) and issue `remove_from_repo`. -/
def repo_perm_step2 (org : Org) (repo_name : String)
    (team_permissions : List (String × String)) (dry_run : Bool)
    (acc : RepoChanges × List RemoteCall) (ct : String × String) :
    Except String (RepoChanges × List RemoteCall) :=
  let changes := acc.1
  let calls := acc.2
  let team_name := ct.1
  if (lookupPerm team_permissions team_name).isSome then Except.ok acc
  else
    let changes := { changes with remove := changes.remove ++ [RepoAction.removeTeam team_name repo_name] }
    if dry_run then Except.ok (changes, calls)
    else
      match org.teams team_name with
      | none => Except.error ("UnknownObjectException")
      | some _ => Except.ok (changes, calls ++ [RemoteCall.removeFromRepo team_name repo_name])

/-- `process_repository_permissions(org, repo_name, team_permissions,
dry_run)`: if the repository lookup fails, return a change set holding a
single `error` entry; otherwise snapshot the current grants and run the
two loops.  The returned call list records every mutating remote call the
source issues. -/
def process_repository_permissions (org : Org) (repo_name : String)
    (team_permissions : List (String × String)) (dry_run : Bool) :
    Except String (RepoChanges × List RemoteCall) :=
  match org.repos repo_name with
  | none =>
      Except.ok ({ RepoChanges.initial with error := [RepoAction.repoNotFound repo_name] }, [])
  | some repo =>
      let current_teams := repo.teams
      let acc1 := team_permissions.foldl (repo_perm_step1 org repo_name current_teams dry_run)
        (RepoChanges.initial, [])
      current_teams.foldlM (repo_perm_step2 org repo_name team_permissions dry_run) acc1

/-- Embeds `create_or_update_team(org, team_name, maintainers, members,
parent_name, dry_run)`.  The `try` lookup is the `Org.teams` match; the
`if team and not dry_run:` block may raise on the parent lookup (modelled
by `Except.error`); the membership diff at the end uses the Python sets
`desired_members = set(maintainers + members)` and
`current_members` (`∅` when the team was not found).  The source issues
no mutating remote call in this function: it only records change
entries. -/
def create_or_update_team (org : Org) (team_name : String)
    (maintainers members : List String) (parent_name : Option String)
    (dry_run : Bool) : Except String TeamChanges :=
  let found := org.teams team_name
  let createList : List TeamAction :=
    match found with
    | some _ => []
    | none => [TeamAction.createTeam team_name]
  let updateTry : List TeamAction :=
    match found with
    | some team =>
        [TeamAction.updateExisting team_name] ++
          (if team.privacy = ("closed") then [] else [TeamAction.wouldChangeVisibility team_name])
    | none => []
  let liveUpdate : Except String (List TeamAction) :=
    match found with
    | some team =>
        if dry_run then Except.ok []
        else
          let vis : List TeamAction :=
            if team.privacy = ("closed") then [] else [TeamAction.changeVisibility team_name]
          match parent_name with
          | none => Except.ok vis
          | some pn =>
              match org.teams pn with
              | none => Except.error ("UnknownObjectException")
              | some _ =>
                  Except.ok (vis ++ (if team.parent = some pn then [] else [TeamAction.setParent team_name pn]))
    | none => Except.ok []
  match liveUpdate with
  | Except.error e => Except.error e
  | Except.ok updLive =>
      let current_members : Finset String :=
        match found with
        | some team => team.members
        | none => ∅
      let desired_members : Finset String := (maintainers ++ members).toFinset
      Except.ok
        { create := createList
          update := updateTry ++ updLive
          add := (desired_members \ current_members).image
            (fun m => TeamAction.addMember team_name m
              (if m ∈ maintainers then ("maintainer") else ("member")))
          remove := (current_members \ desired_members).image
            (fun m => TeamAction.removeMember team_name m) }

/-- Body of the loop of `remove_current_user_from_teams`: skip teams that
list the current user; otherwise look the team up and revoke the user's
membership if present.  Any failure inside the `try` (modelled by the
team lookup returning `none`) is caught and recorded as a printed
failure note, and the loop continues. -/
def sweep_step (current_user : String)
    (acc : Org × List RemoteCall × List SweepNote) (spec : TeamSpec) :
    Org × List RemoteCall × List SweepNote :=
  let org := acc.1
  let calls := acc.2.1
  let notes := acc.2.2
  if current_user ∈ spec.maintainers ∨ current_user ∈ spec.members then acc
  else
    match org.teams spec.name with
    | some team =>
        if current_user ∈ team.members then
          let org2 : Org :=
            { org with teams := fun n =>
                if n = spec.name then some { team with members := team.members.erase current_user }
                else org.teams n }
          (org2, calls ++ [RemoteCall.removeMembership spec.name current_user],
           notes ++ [SweepNote.removed current_user spec.name])
        else acc
    | none => (org, calls, notes ++ [SweepNote.failed current_user spec.name])

/-- Embeds `remove_current_user_from_teams(org, teams_dict, current_user)`:
iterate the configured teams, revoking the current user's incidental
memberships; returns the updated remote state, the mutating calls issued
and the printed notes. -/
def remove_current_user_from_teams (org : Org) (teams_dict : List TeamSpec)
    (current_user : String) : Org × List RemoteCall × List SweepNote :=
  teams_dict.foldl (sweep_step current_user) (org, [], [])

/-- Config lookup `teams_dict[name]` / `name in teams_dict`. -/
def lookupSpec (teams : List TeamSpec) (n : String) : Option TeamSpec :=
  teams.find? (fun t => t.name == n)

/-- Parent name of the configured team called `c`, if any. -/
def parentOf (teams : List TeamSpec) (c : String) : Option String :=
  (lookupSpec teams c).bind (fun t => t.parent)

/-- The child adjacency of `topological_sort`: `graph[n]` is the set of
team names that declare `n` as parent. -/
def childrenOf (teams : List TeamSpec) (n : String) : List String :=
  (teams.filter (fun t => t.parent == some n)).map (fun t => t.name)

/-- The inner `for child in graph[node]` loop of `dfs`: recurse into each
not-yet-visited child. -/
def dfsChildren
    (f : String → Finset String × List String → Finset String × List String) :
    List String → Finset String × List String → Finset String × List String
  | [], st => st
  | c :: cs, st => dfsChildren f cs (if c ∈ st.1 then st else f c st)

/-- The recursive `dfs(node)` of `topological_sort`, with the Python
call stack made explicit as a fuel argument (one unit per nesting level;
`teams.length` units always suffice because every call visits a fresh
node).  State is `(visited, result)`. -/
def dfsVisit (ch : String → List String) :
    Nat → String → Finset String × List String → Finset String × List String
  | 0, _, st => st
  | fuel + 1, node, st =>
      let st2 := dfsChildren (fun c s => dfsVisit ch fuel c s) (ch node) (insert node st.1, st.2)
      (st2.1, st2.2 ++ [node])

/-- Embeds `topological_sort(teams)`: build the child graph (a dangling
parent raises `KeyError` at `graph[team['parent']].add(...)`, modelled by
the guard), run `dfs` from every unvisited name in dict order, and
reverse the post-order result. -/
def topological_sort (teams : List TeamSpec) : Except String (List String) :=
  let names := teams.map (fun t => t.name)
  if teams.all (fun t => match t.parent with | some p => names.contains p | none => true) then
    let final := names.foldl
      (fun st n => if n ∈ st.1 then st else dfsVisit (childrenOf teams) teams.length n st)
      ((∅ : Finset String), [])
    Except.ok final.2.reverse
  else Except.error ("KeyError")

/-- The `while` loop of `get_dependent_teams`, walking the parent chain
upward and collecting parent names nearest-first.  The loop has no
fuel in the source; any fuel exceeding the chain length yields the
loop's value. -/
def walkParents (teams_dict : List TeamSpec) : Nat → String → List String
  | 0, _ => []
  | fuel + 1, current =>
      match lookupSpec teams_dict current with
      | none => []
      | some spec =>
          match spec.parent with
          | none => []
          | some parent => parent :: walkParents teams_dict fuel parent

/-- Embeds `get_dependent_teams(team_name, teams_dict)`: the collected
parent chain, reversed so the furthest ancestor comes first. -/
def get_dependent_teams (team_name : String) (teams_dict : List TeamSpec)
    (fuel : Nat) : List String :=
  (walkParents teams_dict fuel team_name).reverse

/-- The driver's target scoping (`teams_to_process =
get_dependent_teams(target, teams_dict) + [target]`). -/
def scoped_teams_to_process (target : String) (teams_dict : List TeamSpec)
    (fuel : Nat) : List String :=
  get_dependent_teams target teams_dict fuel ++ [target]

/-- Bool-valued encoding of "the parent chain of `t`, nearest ancestor
first, is exactly this list": each link is witnessed in the config and
the last element terminates the chain (no parent, or absent from the
config). -/
def upChain (teams_dict : List TeamSpec) : String → List String → Bool
  | t, [] =>
      (match lookupSpec teams_dict t with
       | none => true
       | some spec => spec.parent == none)
  | t, p :: rest =>
      ((match lookupSpec teams_dict t with
        | none => false
        | some spec => spec.parent == some p) && upChain teams_dict p rest)

/-- Phase 2 of the teams mode (lines 229-239): re-process the ordered
teams, recomputing each diff with `dry_run=False`.  The source calls only
`create_or_update_team` here, which issues no mutating remote call, so
the call list of this loop is empty; `apply_changes` is never invoked. -/
def teams_phase2_team_loop (org : Org) (teams_dict : List TeamSpec)
    (order : List String) : List (Except String TeamChanges) × List RemoteCall :=
  (order.map (fun team_name =>
      match lookupSpec teams_dict team_name with
      | none => Except.error ("KeyError")
      | some team =>
          create_or_update_team org team_name team.maintainers team.members team.parent false),
   [])

/-- Full phase 2 of the teams mode: the recompute loop followed by the
unlisted-current-user sweep (the only mutating step). -/
def teams_phase2 (org : Org) (teams_dict : List TeamSpec) (order : List String)
    (current_user : String) : Org × List RemoteCall :=
  let loop := teams_phase2_team_loop org teams_dict order
  let swept := remove_current_user_from_teams org teams_dict current_user
  (swept.1, loop.2 ++ swept.2.1)

/-- Concrete remote team for witnesses: closed, no parent, members
`a`, `b`. -/
def teamAB : RemoteTeam :=
  { privacy := ("closed"), parent := none, members := ({("a"), ("b")} : Finset String) }

/-- Concrete organization owning only team `t` = `teamAB`. -/
def orgAB : Org :=
  { teams := fun n => if n = ("t") then some teamAB else none, repos := fun _ => none }

/-- Concrete remote team whose state already matches the desired spec
used in the idempotence counterexample: closed, no parent, member `a`. -/
def teamIdem : RemoteTeam :=
  { privacy := ("closed"), parent := none, members := ({("a")} : Finset String) }

/-- Concrete organization owning only team `t` = `teamIdem`. -/
def orgIdem : Org :=
  { teams := fun n => if n = ("t") then some teamIdem else none, repos := fun _ => none }

/-- Concrete organization with teams `t1`, `t2` and one repository `r`
currently granting `t1 → pull`, `t2 → push`. -/
def orgRepo : Org :=
  { teams := fun n =>
      if n = ("t1") ∨ n = ("t2") then some { privacy := ("closed"), parent := none, members := ∅ }
      else none,
    repos := fun n =>
      if n = ("r") then some { teams := [(("t1"), ("pull")), (("t2"), ("push"))] } else none }

/-- Concrete one-team configuration (team `x` with maintainer `m`). -/
def dictX : List TeamSpec :=
  [{ name := ("x"), maintainers := [("m")], members := [], parent := none }]

/-- Concrete three-team chain configuration `root → mid → X`. -/
def dictChain : List TeamSpec :=
  [{ name := ("root"), maintainers := [], members := [], parent := none },
   { name := ("mid"), maintainers := [], members := [], parent := some ("root") },
   { name := ("X"), maintainers := [], members := [], parent := some ("mid") }]

/-- Concrete configuration with a dangling parent reference. -/
def dictDangling : List TeamSpec :=
  [{ name := ("a"), maintainers := [], members := [], parent := some ("ghost") }]

/-- Concrete sweep scenario: team `T` does not list user `me` (remote
members `me`, `x`), team `U` lists `me` as maintainer (remote member
`me`), team `V` is unlisted and its remote lookup fails. -/
def dictSweep : List TeamSpec :=
  [{ name := ("T"), maintainers := [("a")], members := [], parent := none },
   { name := ("U"), maintainers := [("me")], members := [], parent := none },
   { name := ("V"), maintainers := [], members := [], parent := none }]

/-- Concrete remote state for the sweep scenario (`V` absent). -/
def orgSweep : Org :=
  { teams := fun n =>
      if n = ("T") then some { privacy := ("closed"), parent := none, members := ({("me"), ("x")} : Finset String) }
      else if n = ("U") then some { privacy := ("closed"), parent := none, members := ({("me")} : Finset String) }
      else none,
    repos := fun _ => none }

/-- Concrete two-team configuration whose second team has a dangling
parent reference. -/
def dictDangling2 : List TeamSpec :=
  [{ name := ("b"), maintainers := [], members := [], parent := none },
   { name := ("c"), maintainers := [], members := [], parent := some ("ghost") }]

/-- The change set computed for team `t` of `orgAB` with desired
maintainers `b`, `c` and no desired members. -/
def changesAB : TeamChanges :=
  { create := []
    update := [TeamAction.updateExisting ("t")]
    add := ({TeamAction.addMember ("t") ("c") ("maintainer")} : Finset TeamAction)
    remove := ({TeamAction.removeMember ("t") ("a")} : Finset TeamAction) }

/-- Result of the sweep on the concrete sweep scenario. -/
def sweepRes : Org × List RemoteCall × List SweepNote :=
  remove_current_user_from_teams orgSweep dictSweep ("me")

/-- Invariant of the DFS state `(visited, result)` of `topological_sort`:
result entries are visited, the result is duplicate-free, visited names
are team names, and every completed entry already has all its children
before it in the result. -/
def DfsState (teams : List TeamSpec) (v : Finset String) (r : List String) : Prop :=
  (∀ x ∈ r, x ∈ v) ∧ r.Nodup ∧ (∀ x ∈ v, x ∈ teams.map (fun t => t.name)) ∧
  (∀ x c, parentOf teams c = some x → x ∈ r → [c, x].Sublist r)

/-- Read: `b` is a strict ancestor of `a` along the configured parent
chain (one or more parent steps). -/
def strictAnc (teams : List TeamSpec) (a b : String) : Prop :=
  Relation.TransGen (fun x y => parentOf teams x = some y) a b

/-- The visited-but-unfinished names (the Python call stack) when `dfs`
is entered on `node` are strict ancestors of `node`. -/
def DfsStack (teams : List TeamSpec) (node : String) (v : Finset String)
    (r : List String) : Prop :=
  ∀ x ∈ v, x ∉ r → strictAnc teams node x

/-- Claim C6: the permission-translation function maps `read` to `pull`,
`write` to `push`, and leaves `admin`, `maintain` and `triage` unchanged,
for every input in that five-element set. -/
theorem translate_permission_spec :
    translate_permission ("read") = ("pull") ∧
    translate_permission ("write") = ("push") ∧
    translate_permission ("admin") = ("admin") ∧
    translate_permission ("maintain") = ("maintain") ∧
    translate_permission ("triage") = ("triage") := by
  refine ⟨by decide, by decide, by decide, by decide, by decide⟩

/-- Claim C7: when the repository lookup fails, `diff_repo_permissions`
(`process_repository_permissions`) returns immediately: exactly one
`error` entry, empty `add`/`update`/`remove`, and no remote call. -/
theorem process_repository_permissions_not_found
    (org : Org) (repo_name : String) (team_permissions : List (String × String))
    (dry_run : Bool) (h : org.repos repo_name = none) :
    process_repository_permissions org repo_name team_permissions dry_run =
      Except.ok ({ add := [], update := [], remove := [],
                   error := [RepoAction.repoNotFound repo_name] }, []) := by
  unfold process_repository_permissions
  rw [h]
  rfl

/-- Concrete organization with no repositories and no teams, used as a
witness input. -/
def orgEmpty : Org := { teams := fun _ => none, repos := fun _ => none }

/-- Witness for C7 at a concrete input. -/
theorem process_repository_permissions_not_found_witness :
    orgEmpty.repos ("r") = none ∧
    process_repository_permissions orgEmpty ("r") ([(("t"), ("read"))]) true =
      Except.ok ({ add := [], update := [], remove := [],
                   error := [RepoAction.repoNotFound ("r")] }, []) :=
  ⟨rfl, process_repository_permissions_not_found orgEmpty ("r") ([(("t"), ("read"))]) true rfl⟩

/-- Reduction of `create_or_update_team` in dry-run mode when the team
lookup succeeds. -/
theorem create_or_update_team_found
    (org : Org) (team_name : String) (maintainers members : List String)
    (parent_name : Option String) (team : RemoteTeam)
    (h : org.teams team_name = some team) :
    create_or_update_team org team_name maintainers members parent_name true =
      Except.ok
        { create := []
          update := [TeamAction.updateExisting team_name] ++
            (if team.privacy = ("closed") then [] else [TeamAction.wouldChangeVisibility team_name])
          add := (((maintainers ++ members).toFinset) \ team.members).image
            (fun m => TeamAction.addMember team_name m
              (if m ∈ maintainers then ("maintainer") else ("member")))
          remove := (team.members \ ((maintainers ++ members).toFinset)).image
            (fun m => TeamAction.removeMember team_name m) } := by
  unfold create_or_update_team
  rw [h]
  simp

/-- Claim C5: for desired maintainers `M`, desired members `N` and current
member set `C`, the team diff uses `desired = M ∪ N`, records exactly one
add entry (role `maintainer` iff the name is in `M`) per name in
`desired − C`, exactly one remove entry per name in `C − desired`, and
nothing for names in both. -/
theorem create_or_update_team_membership_diff
    (org : Org) (team_name : String) (maintainers members : List String)
    (parent_name : Option String) (team : RemoteTeam)
    (h : org.teams team_name = some team) (changes : TeamChanges)
    (hok : create_or_update_team org team_name maintainers members parent_name true =
      Except.ok changes) :
    (∀ m r, TeamAction.addMember team_name m r ∈ changes.add ↔
        (m ∈ maintainers ++ members ∧ m ∉ team.members ∧
         r = (if m ∈ maintainers then ("maintainer") else ("member")))) ∧
    (∀ m, TeamAction.removeMember team_name m ∈ changes.remove ↔
        (m ∈ team.members ∧ m ∉ maintainers ++ members)) ∧
    (∀ m, m ∈ team.members → m ∈ maintainers ++ members →
        (∀ r, TeamAction.addMember team_name m r ∉ changes.add) ∧
        TeamAction.removeMember team_name m ∉ changes.remove) := by
  rw [create_or_update_team_found org team_name maintainers members parent_name team h] at hok
  have hc := Except.ok.inj hok
  subst hc
  refine ⟨?_, ?_, ?_⟩
  · intro m r
    simp only [Finset.mem_image, Finset.mem_sdiff, List.mem_toFinset,
      TeamAction.addMember.injEq]
    constructor
    · rintro ⟨x, ⟨hx1, hx2⟩, -, hx4, hx5⟩
      subst hx4
      exact ⟨hx1, hx2, hx5.symm⟩
    · rintro ⟨h1, h2, h3⟩
      exact ⟨m, ⟨h1, h2⟩, trivial, rfl, h3.symm⟩
  · intro m
    simp only [Finset.mem_image, Finset.mem_sdiff, List.mem_toFinset,
      TeamAction.removeMember.injEq]
    constructor
    · rintro ⟨x, ⟨hx1, hx2⟩, -, hx4⟩
      subst hx4
      exact ⟨hx1, hx2⟩
    · rintro ⟨h1, h2⟩
      exact ⟨m, ⟨h1, h2⟩, trivial, rfl⟩
  · intro m h1 h2
    constructor
    · intro r hmem
      simp only [Finset.mem_image, Finset.mem_sdiff, List.mem_toFinset,
        TeamAction.addMember.injEq] at hmem
      obtain ⟨x, ⟨-, hx2⟩, -, hx4, -⟩ := hmem
      exact hx2 (hx4 ▸ h1)
    · intro hmem
      simp only [Finset.mem_image, Finset.mem_sdiff, List.mem_toFinset,
        TeamAction.removeMember.injEq] at hmem
      obtain ⟨x, ⟨-, hx2⟩, -, hx4⟩ := hmem
      exact hx2 (hx4 ▸ h2)

/-- Witness for C5 at the concrete scenario of the spec: current members
`a`, `b`; desired maintainers `b`, `c`; no desired members. -/
theorem create_or_update_team_membership_diff_witness :
    TeamAction.addMember ("t") ("c") ("maintainer") ∈ changesAB.add ∧
    TeamAction.removeMember ("t") ("a") ∈ changesAB.remove ∧
    TeamAction.addMember ("t") ("b") ("maintainer") ∉ changesAB.add ∧
    TeamAction.removeMember ("t") ("b") ∉ changesAB.remove := by
  obtain ⟨hadd, hrem, hboth⟩ :=
    create_or_update_team_membership_diff orgAB ("t") ([("b"), ("c")]) ([]) none teamAB
      rfl changesAB rfl
  exact ⟨(hadd ("c") ("maintainer")).mpr (by decide),
    (hrem ("a")).mpr (by decide),
    (hboth ("b") (by decide) (by decide)).1 ("maintainer"),
    (hboth ("b") (by decide) (by decide)).2⟩

/-- Claim C2 (counterexample): with desired state equal to the faithfully
read current state (team `t`, closed, no parent, member `a`, desired
maintainers `a`), the team diff's `update` category is *not* empty: the
source unconditionally appends a "Would update existing team" entry. -/
theorem diff_idempotence_counterexample :
    create_or_update_team orgIdem ("t") ([("a")]) ([]) none true =
      Except.ok { create := [], update := [TeamAction.updateExisting ("t")],
                  add := (∅ : Finset TeamAction), remove := (∅ : Finset TeamAction) } ∧
    [TeamAction.updateExisting ("t")] ≠ ([] : List TeamAction) := by
  exact ⟨rfl, by decide⟩

/-- Step of the first repository loop leaves the change set untouched
when the team resolves and the current grant already equals the
translated desired level. -/
theorem repo_perm_step1_changes_eq
    (org : Org) (repo_name : String) (current : List (String × String)) (dry : Bool)
    (acc : RepoChanges × List RemoteCall) (tp : String × String)
    (h1 : (org.teams tp.1).isSome)
    (h2 : lookupPerm current tp.1 = some (translate_permission tp.2)) :
    (repo_perm_step1 org repo_name current dry acc tp).1 = acc.1 := by
  obtain ⟨team, hteam⟩ := Option.isSome_iff_exists.mp h1
  simp only [repo_perm_step1]
  rw [hteam, h2]
  simp only [ne_eq, not_true_eq_false, if_false]
  cases dry <;> rfl

/-- First repository loop: under faithful current grants the change set
is unchanged. -/
theorem repo_fold1_changes_eq
    (org : Org) (repo_name : String) (current : List (String × String)) (dry : Bool) :
    ∀ (l : List (String × String)) (acc : RepoChanges × List RemoteCall),
      (∀ tp ∈ l, (org.teams tp.1).isSome) →
      (∀ tp ∈ l, lookupPerm current tp.1 = some (translate_permission tp.2)) →
      (l.foldl (repo_perm_step1 org repo_name current dry) acc).1 = acc.1 := by
  intro l
  induction l with
  | nil => intro acc _ _; rfl
  | cons tp rest ih =>
      intro acc h1 h2
      simp only [List.foldl_cons]
      rw [ih (repo_perm_step1 org repo_name current dry acc tp)
        (fun x hx => h1 x (List.mem_cons_of_mem tp hx))
        (fun x hx => h2 x (List.mem_cons_of_mem tp hx))]
      exact repo_perm_step1_changes_eq org repo_name current dry acc tp
        (h1 tp (List.mem_cons_self _ _)) (h2 tp (List.mem_cons_self _ _))

/-- Second repository loop: when every current grant's team is still
desired, the loop is the identity. -/
theorem repo_fold2_skip
    (org : Org) (repo_name : String) (desired : List (String × String)) (dry : Bool) :
    ∀ (l : List (String × String)) (acc : RepoChanges × List RemoteCall),
      (∀ ct ∈ l, (lookupPerm desired ct.1).isSome) →
      l.foldlM (repo_perm_step2 org repo_name desired dry) acc = Except.ok acc := by
  intro l
  induction l with
  | nil => intro acc _; rfl
  | cons ct rest ih =>
      intro acc h
      have hstep : repo_perm_step2 org repo_name desired dry acc ct = Except.ok acc := by
        simp [repo_perm_step2, h ct (List.mem_cons_self _ _)]
      simp only [List.foldlM_cons, hstep]
      exact ih acc (fun x hx => h x (List.mem_cons_of_mem ct hx))

/-- Claim C2 (amended): with desired state equal to the faithfully read
current remote state, the team diff has empty `add`/`remove` and its
`update` category holds exactly the one unconditional "Would update
existing team" notice (not empty, as claimed), while the repository diff
has empty `add`/`update`/`remove` as claimed. -/
theorem diff_idempotence_amended :
    (∀ (org : Org) (team_name : String) (maintainers members : List String)
       (parent_name : Option String) (team : RemoteTeam),
       org.teams team_name = some team →
       team.privacy = ("closed") →
       (∀ pn, parent_name = some pn → team.parent = some pn ∧ (org.teams pn).isSome) →
       team.members = (maintainers ++ members).toFinset →
       ∀ dry_run, create_or_update_team org team_name maintainers members parent_name dry_run =
         Except.ok { create := [], update := [TeamAction.updateExisting team_name],
                     add := (∅ : Finset TeamAction), remove := (∅ : Finset TeamAction) }) ∧
    (∀ (org : Org) (repo_name : String) (repo : RemoteRepo)
       (team_permissions : List (String × String)) (dry_run : Bool),
       org.repos repo_name = some repo →
       (∀ tp ∈ team_permissions, (org.teams tp.1).isSome) →
       (∀ tp ∈ team_permissions, lookupPerm repo.teams tp.1 = some (translate_permission tp.2)) →
       (∀ ct ∈ repo.teams, (lookupPerm team_permissions ct.1).isSome) →
       (process_repository_permissions org repo_name team_permissions dry_run).map
           (fun res => res.1) =
         Except.ok { add := [], update := [], remove := [], error := [] }) := by
  constructor
  · intro org team_name maintainers members parent_name team h hpriv hpar hmem dry_run
    unfold create_or_update_team
    rw [h]
    cases dry_run with
    | true => simp [hpriv, hmem]
    | false =>
        cases hpn : parent_name with
        | none => simp [hpriv, hmem]
        | some pn =>
            obtain ⟨hp1, hp2⟩ := hpar pn hpn
            obtain ⟨pt, hpt⟩ := Option.isSome_iff_exists.mp hp2
            simp [hpriv, hmem, hp1, hpt]
  · intro org repo_name repo team_permissions dry_run hrepo hteams hfaith hkeys
    unfold process_repository_permissions
    rw [hrepo]
    simp only
    rw [repo_fold2_skip org repo_name team_permissions dry_run repo.teams _ hkeys]
    simp only [Except.map]
    rw [repo_fold1_changes_eq org repo_name repo.teams dry_run team_permissions
      (RepoChanges.initial, []) hteams hfaith]
    rfl

/-- Witness for the amended C2 at concrete inputs: a team whose remote
state equals its desired spec, and a repository whose grants equal the
translated desired mapping. -/
theorem diff_idempotence_amended_witness :
    create_or_update_team orgIdem ("t") ([("a")]) ([]) none true =
      Except.ok { create := [], update := [TeamAction.updateExisting ("t")],
                  add := (∅ : Finset TeamAction), remove := (∅ : Finset TeamAction) } ∧
    (process_repository_permissions orgRepo ("r")
        ([(("t1"), ("read")), (("t2"), ("write"))]) true).map (fun res => res.1) =
      Except.ok { add := [], update := [], remove := [], error := [] } := by
  constructor
  · exact diff_idempotence_amended.1 orgIdem ("t") ([("a")]) ([]) none teamIdem rfl rfl
      (fun pn h => nomatch h) (by decide) true
  · exact diff_idempotence_amended.2 orgRepo ("r")
      { teams := [(("t1"), ("pull")), (("t2"), ("push"))] }
      ([(("t1"), ("read")), (("t2"), ("write"))]) true rfl (by decide) (by decide) (by decide)

/-- Claim C1 (code-bug evidence): on a live confirmed run over the
one-team config `dictX` against a remote without team `x`, the phase-2
team loop recomputes a diff that demands creating `x` and adding `m`,
yet issues no mutating remote call at all (and the full phase 2,
including the sweep, issues none either on this input): the source's
phase 2 only calls `create_or_update_team`, which never mutates, and
`apply_changes` is never invoked. -/
theorem teams_phase2_issues_no_mutating_calls :
    (teams_phase2_team_loop orgEmpty dictX ([("x")])).2 = ([] : List RemoteCall) ∧
    (teams_phase2 orgEmpty dictX ([("x")]) ("me")).2 = ([] : List RemoteCall) ∧
    (teams_phase2_team_loop orgEmpty dictX ([("x")])).1 =
      [Except.ok { create := [TeamAction.createTeam ("x")], update := [],
                   add := ({TeamAction.addMember ("x") ("m") ("maintainer")} : Finset TeamAction),
                   remove := (∅ : Finset TeamAction) }] := by
  refine ⟨rfl, rfl, ?_⟩
  decide

/-- Claim C9 (counterexample): a dangling parent makes the ordering
itself fail: `topological_sort` hits the missing key while building the
child graph (`KeyError`), before any remote interaction. -/
theorem topological_sort_dangling_counterexample :
    topological_sort dictDangling = Except.error ("KeyError") := by
  decide

/-- Claim C9 (amended): the engine indeed performs no validation of
parent references, but a dangling parent does *not* surface as a
remote-lookup failure at apply time: the full-run ordering itself fails
with a key-lookup error first. -/
theorem topological_sort_dangling_fails
    (teams : List TeamSpec) (t : TeamSpec) (p : String)
    (ht : t ∈ teams) (hp : t.parent = some p)
    (hnp : p ∉ teams.map (fun s => s.name)) :
    topological_sort teams = Except.error ("KeyError") := by
  have hcond : ¬ ((teams.all
      (fun t => match t.parent with
        | some p => (teams.map (fun t => t.name)).contains p
        | none => true)) = true) := by
    rw [List.all_eq_true]
    intro hforall
    have hmem := hforall t ht
    rw [hp] at hmem
    have : p ∈ teams.map (fun t => t.name) := by
      simpa using List.mem_of_elem_eq_true hmem
    exact hnp (by simpa using this)
  simp only [topological_sort]
  rw [if_neg hcond]

/-- Witness for the amended C9 at a concrete two-team config. -/
theorem topological_sort_dangling_fails_witness :
    topological_sort dictDangling2 = Except.error ("KeyError") :=
  topological_sort_dangling_fails dictDangling2
    { name := ("c"), maintainers := [], members := [], parent := some ("ghost") }
    ("ghost") (by decide) rfl (by decide)

/-- The parent-chain walk of `get_dependent_teams` returns exactly the
chain encoded by `upChain`, for any fuel exceeding the chain length. -/
theorem walkParents_of_upChain :
    ∀ (u : List String) (teams_dict : List TeamSpec) (t : String) (fuel : Nat),
      upChain teams_dict t u = true → u.length < fuel →
      walkParents teams_dict fuel t = u := by
  intro u
  induction u with
  | nil =>
      intro dict t fuel h hf
      cases fuel with
      | zero => exact absurd hf (Nat.lt_irrefl 0)
      | succ f =>
          unfold walkParents
          unfold upChain at h
          cases hl : lookupSpec dict t with
          | none => rfl
          | some spec =>
              rw [hl] at h
              have hpar : spec.parent = none := by simpa using h
              simp [hpar]
  | cons p rest ih =>
      intro dict t fuel h hf
      cases fuel with
      | zero => exact absurd hf (Nat.not_lt_zero _)
      | succ f =>
          unfold upChain at h
          cases hl : lookupSpec dict t with
          | none => rw [hl] at h; simp at h
          | some spec =>
              rw [hl] at h
              rw [Bool.and_eq_true] at h
              have hpar : spec.parent = some p := by simpa using h.1
              unfold walkParents
              simp only [hl, hpar]
              rw [ih dict p f h.2 (by simpa using Nat.lt_of_succ_lt_succ hf)]

/-- Claim C4: for a target `t` whose root-first ancestor chain is `anc`,
`get_dependent_teams` returns exactly `anc` (excluding `t`), and the
scoped run processes exactly `anc ++ [t]`. -/
theorem get_dependent_teams_spec
    (teams_dict : List TeamSpec) (t : String) (anc : List String) (fuel : Nat)
    (h : upChain teams_dict t anc.reverse = true) (hfuel : anc.length < fuel) :
    get_dependent_teams t teams_dict fuel = anc ∧
    scoped_teams_to_process t teams_dict fuel = anc ++ [t] := by
  have hw := walkParents_of_upChain anc.reverse teams_dict t fuel h (by simpa using hfuel)
  constructor
  · unfold get_dependent_teams
    rw [hw, List.reverse_reverse]
  · unfold scoped_teams_to_process get_dependent_teams
    rw [hw, List.reverse_reverse]

/-- Witness for C4 at the concrete chain `root → mid → X` of the spec. -/
theorem get_dependent_teams_spec_witness :
    get_dependent_teams ("X") dictChain 4 = [("root"), ("mid")] ∧
    scoped_teams_to_process ("X") dictChain 4 = [("root"), ("mid"), ("X")] :=
  get_dependent_teams_spec dictChain ("X") ([("root"), ("mid")]) 4 (by decide) (by decide)

/-- First repository loop in live mode: one grant call per desired pair,
in order, regardless of whether an `add`/`update` entry was recorded. -/
theorem repo_fold1_calls
    (org : Org) (repo_name : String) (current : List (String × String)) :
    ∀ (l : List (String × String)) (acc : RepoChanges × List RemoteCall),
      (∀ tp ∈ l, (org.teams tp.1).isSome) →
      (l.foldl (repo_perm_step1 org repo_name current false) acc).2 =
        acc.2 ++ l.map (fun tp => RemoteCall.grantRepoPerm tp.1 repo_name (translate_permission tp.2)) := by
  intro l
  induction l with
  | nil => intro acc _; simp
  | cons tp rest ih =>
      intro acc h
      obtain ⟨team, hteam⟩ := Option.isSome_iff_exists.mp (h tp (List.mem_cons_self _ _))
      have hstep : (repo_perm_step1 org repo_name current false acc tp).2 =
          acc.2 ++ [RemoteCall.grantRepoPerm tp.1 repo_name (translate_permission tp.2)] := by
        simp only [repo_perm_step1]
        rw [hteam]
        simp
      rw [List.foldl_cons, ih _ (fun x hx => h x (List.mem_cons_of_mem tp hx)), hstep]
      simp

/-- Second repository loop in live mode: when every current grant whose
team is no longer desired still resolves remotely, the loop succeeds and
issues exactly one revocation call per such grant. -/
theorem repo_fold2_calls
    (org : Org) (repo_name : String) (desired : List (String × String)) :
    ∀ (l : List (String × String)) (acc : RepoChanges × List RemoteCall),
      (∀ ct ∈ l, (lookupPerm desired ct.1).isSome = false → (org.teams ct.1).isSome) →
      ∃ chg, l.foldlM (repo_perm_step2 org repo_name desired false) acc =
        Except.ok (chg, acc.2 ++ (l.filter (fun ct => (lookupPerm desired ct.1).isNone)).map
          (fun ct => RemoteCall.removeFromRepo ct.1 repo_name)) := by
  intro l
  induction l with
  | nil =>
      intro acc _
      exact ⟨acc.1, by simp only [List.foldlM_nil, List.filter_nil, List.map_nil,
        List.append_nil]; rfl⟩
  | cons ct rest ih =>
      intro acc h
      cases hluk : lookupPerm desired ct.1 with
      | some perm =>
          have hstep : repo_perm_step2 org repo_name desired false acc ct = Except.ok acc := by
            simp [repo_perm_step2, hluk]
          obtain ⟨chg, hrest⟩ := ih acc (fun x hx hf => h x (List.mem_cons_of_mem ct hx) hf)
          refine ⟨chg, ?_⟩
          have hfil : (ct :: rest).filter (fun c => (lookupPerm desired c.1).isNone) =
              rest.filter (fun c => (lookupPerm desired c.1).isNone) := by
            simp [List.filter_cons, hluk]
          rw [List.foldlM_cons, hstep, hfil]
          exact hrest
      | none =>
          have hsome := h ct (List.mem_cons_self _ _) (by rw [hluk]; rfl)
          obtain ⟨team, hteam⟩ := Option.isSome_iff_exists.mp hsome
          have hstep : repo_perm_step2 org repo_name desired false acc ct =
              Except.ok ({ acc.1 with remove := acc.1.remove ++ [RepoAction.removeTeam ct.1 repo_name] },
                acc.2 ++ [RemoteCall.removeFromRepo ct.1 repo_name]) := by
            simp [repo_perm_step2, hluk, hteam]
          obtain ⟨chg, hrest⟩ := ih
            ({ acc.1 with remove := acc.1.remove ++ [RepoAction.removeTeam ct.1 repo_name] },
              acc.2 ++ [RemoteCall.removeFromRepo ct.1 repo_name])
            (fun x hx hf => h x (List.mem_cons_of_mem ct hx) hf)
          refine ⟨chg, ?_⟩
          have hfil : (ct :: rest).filter (fun c => (lookupPerm desired c.1).isNone) =
              ct :: rest.filter (fun c => (lookupPerm desired c.1).isNone) := by
            simp [List.filter_cons, hluk]
          rw [List.foldlM_cons, hstep, hfil]
          refine hrest.trans ?_
          simp

/-- Claim C10: in live mode the repository pass issues one grant-update
call for every desired (team, level) pair — including pairs already at
the desired level, for which no add/update entry exists — and one
revocation call exactly for each current grant whose team is absent from
the desired mapping. -/
theorem process_repository_permissions_live_calls
    (org : Org) (repo_name : String) (repo : RemoteRepo)
    (team_permissions : List (String × String))
    (hrepo : org.repos repo_name = some repo)
    (hteams : ∀ tp ∈ team_permissions, (org.teams tp.1).isSome)
    (hcur : ∀ ct ∈ repo.teams,
      (lookupPerm team_permissions ct.1).isSome = false → (org.teams ct.1).isSome) :
    (process_repository_permissions org repo_name team_permissions false).map
        (fun res => res.2) =
      Except.ok
        (team_permissions.map
            (fun tp => RemoteCall.grantRepoPerm tp.1 repo_name (translate_permission tp.2)) ++
         (repo.teams.filter (fun ct => (lookupPerm team_permissions ct.1).isNone)).map
            (fun ct => RemoteCall.removeFromRepo ct.1 repo_name)) := by
  obtain ⟨chg, h2⟩ := repo_fold2_calls org repo_name team_permissions repo.teams
    (team_permissions.foldl (repo_perm_step1 org repo_name repo.teams false)
      (RepoChanges.initial, [])) hcur
  simp only [process_repository_permissions]
  rw [hrepo]
  simp only [h2, Except.map]
  rw [repo_fold1_calls org repo_name repo.teams team_permissions
    (RepoChanges.initial, []) hteams]
  simp

/-- Witness for C10: desired `t1 → read` already matches the current
`pull` grant (no add/update entry), yet a grant call for `t1` is issued;
the stale `t2` grant is revoked. -/
theorem process_repository_permissions_live_calls_witness :
    (process_repository_permissions orgRepo ("r") ([(("t1"), ("read"))]) false).map
        (fun res => res.2) =
      Except.ok ([RemoteCall.grantRepoPerm ("t1") ("r") ("pull"),
                  RemoteCall.removeFromRepo ("t2") ("r")]) := by
  have h := process_repository_permissions_live_calls orgRepo ("r")
    { teams := [(("t1"), ("pull")), (("t2"), ("push"))] }
    ([(("t1"), ("read"))]) rfl (by decide) (by decide)
  simpa using h

/-- One sweep step only ever rewrites the remote entry of its own team
name. -/
theorem sweep_step_teams_other (u : String)
    (acc : Org × List RemoteCall × List SweepNote) (spec : TeamSpec)
    (n : String) (hne : spec.name ≠ n) :
    ((sweep_step u acc spec).1).teams n = acc.1.teams n := by
  by_cases hlisted : u ∈ spec.maintainers ∨ u ∈ spec.members
  · simp [sweep_step, hlisted]
  · cases hteam : acc.1.teams spec.name with
    | none => simp [sweep_step, hlisted, hteam]
    | some team =>
        by_cases hmem : u ∈ team.members
        · simp [sweep_step, hlisted, hteam, hmem, Ne.symm hne]
        · simp [sweep_step, hlisted, hteam, hmem]

/-- The sweep never rewrites remote entries of names outside the
processed list. -/
theorem sweep_foldl_teams_other (u : String) :
    ∀ (l : List TeamSpec) (acc : Org × List RemoteCall × List SweepNote) (n : String),
      n ∉ l.map (fun t => t.name) →
      ((l.foldl (sweep_step u) acc).1).teams n = acc.1.teams n := by
  intro l
  induction l with
  | nil => intro acc n _; rfl
  | cons spec rest ih =>
      intro acc n hn
      simp only [List.map_cons, List.mem_cons, not_or] at hn
      rw [List.foldl_cons, ih _ n hn.2,
        sweep_step_teams_other u acc spec n (fun hh => hn.1 hh.symm)]

/-- Calls already issued survive one sweep step. -/
theorem sweep_step_mem_calls (u : String)
    (acc : Org × List RemoteCall × List SweepNote) (spec : TeamSpec)
    (x : RemoteCall) (hx : x ∈ acc.2.1) : x ∈ (sweep_step u acc spec).2.1 := by
  by_cases hlisted : u ∈ spec.maintainers ∨ u ∈ spec.members
  · simpa [sweep_step, hlisted] using hx
  · cases hteam : acc.1.teams spec.name with
    | none => simpa [sweep_step, hlisted, hteam] using hx
    | some team =>
        by_cases hmem : u ∈ team.members
        · simp [sweep_step, hlisted, hteam, hmem]
          exact Or.inl hx
        · simpa [sweep_step, hlisted, hteam, hmem] using hx

/-- Notes already printed survive one sweep step. -/
theorem sweep_step_mem_notes (u : String)
    (acc : Org × List RemoteCall × List SweepNote) (spec : TeamSpec)
    (x : SweepNote) (hx : x ∈ acc.2.2) : x ∈ (sweep_step u acc spec).2.2 := by
  by_cases hlisted : u ∈ spec.maintainers ∨ u ∈ spec.members
  · simpa [sweep_step, hlisted] using hx
  · cases hteam : acc.1.teams spec.name with
    | none =>
        simp [sweep_step, hlisted, hteam]
        exact Or.inl hx
    | some team =>
        by_cases hmem : u ∈ team.members
        · simp [sweep_step, hlisted, hteam, hmem]
          exact Or.inl hx
        · simpa [sweep_step, hlisted, hteam, hmem] using hx

/-- Calls already issued survive the rest of the sweep. -/
theorem sweep_foldl_mem_calls (u : String) :
    ∀ (l : List TeamSpec) (acc : Org × List RemoteCall × List SweepNote) (x : RemoteCall),
      x ∈ acc.2.1 → x ∈ (l.foldl (sweep_step u) acc).2.1 := by
  intro l
  induction l with
  | nil => intro acc x hx; exact hx
  | cons spec rest ih =>
      intro acc x hx
      rw [List.foldl_cons]
      exact ih _ x (sweep_step_mem_calls u acc spec x hx)

/-- Notes already printed survive the rest of the sweep. -/
theorem sweep_foldl_mem_notes (u : String) :
    ∀ (l : List TeamSpec) (acc : Org × List RemoteCall × List SweepNote) (x : SweepNote),
      x ∈ acc.2.2 → x ∈ (l.foldl (sweep_step u) acc).2.2 := by
  intro l
  induction l with
  | nil => intro acc x hx; exact hx
  | cons spec rest ih =>
      intro acc x hx
      rw [List.foldl_cons]
      exact ih _ x (sweep_step_mem_notes u acc spec x hx)

/-- Per-team behavior of the sweep fold, relative to an arbitrary
accumulator. -/
theorem sweep_foldl_spec (u : String) :
    ∀ (l : List TeamSpec) (acc : Org × List RemoteCall × List SweepNote),
      (l.map (fun t => t.name)).Nodup →
      ∀ spec ∈ l,
        ((u ∈ spec.maintainers ∨ u ∈ spec.members) →
           ((l.foldl (sweep_step u) acc).1).teams spec.name = acc.1.teams spec.name) ∧
        (u ∉ spec.maintainers → u ∉ spec.members →
           (∀ team, acc.1.teams spec.name = some team → u ∈ team.members →
              ((l.foldl (sweep_step u) acc).1).teams spec.name =
                some { team with members := team.members.erase u } ∧
              RemoteCall.removeMembership spec.name u ∈ (l.foldl (sweep_step u) acc).2.1) ∧
           (acc.1.teams spec.name = none →
              SweepNote.failed u spec.name ∈ (l.foldl (sweep_step u) acc).2.2 ∧
              ((l.foldl (sweep_step u) acc).1).teams spec.name = none)) := by
  intro l
  induction l with
  | nil => intro acc _ spec hspec; exact absurd hspec (List.not_mem_nil _)
  | cons spec0 rest ih =>
      intro acc hnd spec hspec
      simp only [List.map_cons, List.nodup_cons] at hnd
      obtain ⟨hnotin, hndrest⟩ := hnd
      rcases List.mem_cons.mp hspec with heq | hmem
      · subst heq
        constructor
        · intro hlisted
          have hstep : sweep_step u acc spec = acc := by simp [sweep_step, hlisted]
          rw [List.foldl_cons, hstep, sweep_foldl_teams_other u rest acc spec.name hnotin]
        · intro hm1 hm2
          constructor
          · intro team hteam humem
            have hstep : sweep_step u acc spec =
                ({ acc.1 with teams := fun n =>
                     if n = spec.name then some { team with members := team.members.erase u }
                     else acc.1.teams n },
                 acc.2.1 ++ [RemoteCall.removeMembership spec.name u],
                 acc.2.2 ++ [SweepNote.removed u spec.name]) := by
              simp [sweep_step, hm1, hm2, hteam, humem]
            rw [List.foldl_cons, hstep]
            constructor
            · rw [sweep_foldl_teams_other u rest _ spec.name hnotin]
              simp
            · apply sweep_foldl_mem_calls
              simp
          · intro hteam
            have hstep : sweep_step u acc spec =
                (acc.1, acc.2.1, acc.2.2 ++ [SweepNote.failed u spec.name]) := by
              simp [sweep_step, hm1, hm2, hteam]
            rw [List.foldl_cons, hstep]
            constructor
            · apply sweep_foldl_mem_notes
              simp
            · rw [sweep_foldl_teams_other u rest _ spec.name hnotin]
              exact hteam
      · have hne : spec0.name ≠ spec.name :=
          fun hh => hnotin (hh ▸ List.mem_map_of_mem (fun t => t.name) hmem)
        have hacc1 := sweep_step_teams_other u acc spec0 spec.name hne
        have IH := ih (sweep_step u acc spec0) hndrest spec hmem
        rw [List.foldl_cons]
        constructor
        · intro hlisted
          rw [IH.1 hlisted, hacc1]
        · intro hm1 hm2
          constructor
          · intro team hteam humem
            exact (IH.2 hm1 hm2).1 team (hacc1.trans hteam) humem
          · intro hteam
            exact (IH.2 hm1 hm2).2 (hacc1.trans hteam)

/-- Claim C8: for every configured team that does not list the current
identity, the sweep revokes the identity's remote membership if present
(issuing the revocation call); teams that do list the identity are left
untouched; and a per-team failure (the caught lookup failure) is
reported as a printed note while the sweep's guarantees for every other
team still hold — the conjuncts below hold for all teams of the config
simultaneously, whether or not other teams fail. -/
theorem remove_current_user_from_teams_spec
    (org : Org) (teams_dict : List TeamSpec) (current_user : String)
    (hnd : (teams_dict.map (fun t => t.name)).Nodup) :
    (∀ spec ∈ teams_dict,
       (current_user ∈ spec.maintainers ∨ current_user ∈ spec.members) →
       (remove_current_user_from_teams org teams_dict current_user).1.teams spec.name =
         org.teams spec.name) ∧
    (∀ spec ∈ teams_dict, current_user ∉ spec.maintainers → current_user ∉ spec.members →
       ∀ team, org.teams spec.name = some team → current_user ∈ team.members →
         (remove_current_user_from_teams org teams_dict current_user).1.teams spec.name =
           some { team with members := team.members.erase current_user } ∧
         RemoteCall.removeMembership spec.name current_user ∈
           (remove_current_user_from_teams org teams_dict current_user).2.1) ∧
    (∀ spec ∈ teams_dict, current_user ∉ spec.maintainers → current_user ∉ spec.members →
       org.teams spec.name = none →
         SweepNote.failed current_user spec.name ∈
           (remove_current_user_from_teams org teams_dict current_user).2.2 ∧
         (remove_current_user_from_teams org teams_dict current_user).1.teams spec.name =
           none) := by
  refine ⟨?_, ?_, ?_⟩
  · intro spec hs hl
    exact (sweep_foldl_spec current_user teams_dict (org, [], []) hnd spec hs).1 hl
  · intro spec hs h1 h2 team ht hm
    exact ((sweep_foldl_spec current_user teams_dict (org, [], []) hnd spec hs).2 h1 h2).1
      team ht hm
  · intro spec hs h1 h2 ht
    exact ((sweep_foldl_spec current_user teams_dict (org, [], []) hnd spec hs).2 h1 h2).2 ht

/-- Witness for C8 at the concrete sweep scenario: `me` is removed from
unlisted team `T`, listed team `U` is untouched, and the failure on
absent team `V` is reported while the rest of the sweep still happened. -/
theorem remove_current_user_from_teams_spec_witness :
    sweepRes.1.teams ("T") =
      some { privacy := ("closed"), parent := none,
             members := (({("me"), ("x")} : Finset String).erase ("me")) } ∧
    RemoteCall.removeMembership ("T") ("me") ∈ sweepRes.2.1 ∧
    sweepRes.1.teams ("U") = orgSweep.teams ("U") ∧
    SweepNote.failed ("me") ("V") ∈ sweepRes.2.2 := by
  obtain ⟨h1, h2, h3⟩ :=
    remove_current_user_from_teams_spec orgSweep dictSweep ("me") (by decide)
  have hT := h2 { name := ("T"), maintainers := [("a")], members := [], parent := none }
    (by decide) (by decide) (by decide)
    { privacy := ("closed"), parent := none, members := ({("me"), ("x")} : Finset String) }
    rfl (by decide)
  have hU := h1 { name := ("U"), maintainers := [("me")], members := [], parent := none }
    (by decide) (Or.inl (by decide))
  have hV := h3 { name := ("V"), maintainers := [], members := [], parent := none }
    (by decide) (by decide) (by decide) rfl
  exact ⟨hT.1, hT.2, hU, hV.1⟩

/-- A name with a configured parent is itself a configured team name. -/
theorem parentOf_mem_names (teams : List TeamSpec) (c n : String)
    (h : parentOf teams c = some n) : c ∈ teams.map (fun t => t.name) := by
  unfold parentOf lookupSpec at h
  cases hf : teams.find? (fun t => t.name == c) with
  | none => rw [hf] at h; simp at h
  | some spec =>
      have hmem := List.mem_of_find?_eq_some hf
      have hname : spec.name = c := by simpa using List.find?_some hf
      rw [← hname]
      exact List.mem_map_of_mem (fun t => t.name) hmem

/-- When every configured parent is a configured name, the parent of a
configured team is a configured name. -/
theorem parentOf_closed (teams : List TeamSpec)
    (hclosed : ∀ t ∈ teams, ∀ p, t.parent = some p → p ∈ teams.map (fun t => t.name))
    (c n : String) (h : parentOf teams c = some n) :
    n ∈ teams.map (fun t => t.name) := by
  unfold parentOf lookupSpec at h
  cases hf : teams.find? (fun t => t.name == c) with
  | none => rw [hf] at h; simp at h
  | some spec =>
      rw [hf] at h
      exact hclosed spec (List.mem_of_find?_eq_some hf) n h

/-- With duplicate-free names, membership in the child adjacency agrees
with the parent lookup. -/
theorem childrenOf_iff (teams : List TeamSpec)
    (hnd : (teams.map (fun t => t.name)).Nodup) (n c : String) :
    c ∈ childrenOf teams n ↔ parentOf teams c = some n := by
  constructor
  · intro h
    obtain ⟨t, ht, hname⟩ := List.mem_map.mp h
    obtain ⟨htmem, hpar⟩ := List.mem_filter.mp ht
    have hpar2 : t.parent = some n := by simpa using hpar
    unfold parentOf lookupSpec
    cases hf : teams.find? (fun s => s.name == c) with
    | none =>
        have := List.find?_eq_none.mp hf t htmem
        rw [hname] at this
        simp at this
    | some t2 =>
        have ht2mem := List.mem_of_find?_eq_some hf
        have ht2name : t2.name = c := by simpa using List.find?_some hf
        have : t2 = t := List.inj_on_of_nodup_map hnd ht2mem htmem (by rw [ht2name, hname])
        rw [this]
        simpa using hpar2
  · intro h
    unfold parentOf lookupSpec at h
    cases hf : teams.find? (fun s => s.name == c) with
    | none => rw [hf] at h; simp at h
    | some t =>
        rw [hf] at h
        have htmem := List.mem_of_find?_eq_some hf
        have htname : t.name = c := by simpa using List.find?_some hf
        unfold childrenOf
        rw [← htname]
        have hfilt : t ∈ teams.filter (fun s => s.parent == some n) := by
          rw [List.mem_filter]
          exact ⟨htmem, by simpa using h⟩
        exact List.mem_map_of_mem (fun s : TeamSpec => s.name) hfilt

/-- The rank function of a forest strictly decreases along the parent
lookup. -/
theorem parentOf_delta (teams : List TeamSpec) (δ : String → Nat)
    (hδ : ∀ t ∈ teams, ∀ p, t.parent = some p → δ p < δ t.name)
    (c n : String) (h : parentOf teams c = some n) : δ n < δ c := by
  unfold parentOf lookupSpec at h
  cases hf : teams.find? (fun t => t.name == c) with
  | none => rw [hf] at h; simp at h
  | some spec =>
      rw [hf] at h
      have hname : spec.name = c := by simpa using List.find?_some hf
      rw [← hname]
      exact hδ spec (List.mem_of_find?_eq_some hf) n h

/-- The rank strictly decreases along strict-ancestor chains. -/
theorem anc_delta (teams : List TeamSpec) (δ : String → Nat)
    (hδ : ∀ t ∈ teams, ∀ p, t.parent = some p → δ p < δ t.name)
    (a b : String)
    (h : strictAnc teams a b) : δ b < δ a := by
  unfold strictAnc at h
  induction h with
  | single hs => exact parentOf_delta teams δ hδ _ _ hs
  | tail _ hs ih => exact (parentOf_delta teams δ hδ _ _ hs).trans ih

/-- In a duplicate-free list, "occurs before" is transitive (as ordered
pair sublists). -/
theorem sublist_pair_trans {α : Type} (l : List α) (a b c : α) (hnd : l.Nodup)
    (h1 : [a, b].Sublist l) (h2 : [b, c].Sublist l) : [a, c].Sublist l := by
  induction l with
  | nil => exact absurd (h1.subset (by simp)) (List.not_mem_nil a)
  | cons x t ih =>
      rw [List.nodup_cons] at hnd
      cases h1 with
      | cons _ h1' =>
          cases h2 with
          | cons _ h2' => exact (ih hnd.2 h1' h2').cons x
          | cons₂ _ h2' => exact absurd (h1'.subset (by simp)) hnd.1
      | cons₂ _ h1' =>
          cases h2 with
          | cons _ h2' =>
              have hc : c ∈ t := h2'.subset (by simp)
              exact List.Sublist.cons₂ _ (List.singleton_sublist.mpr hc)
          | cons₂ _ h2' => exact absurd (h1'.subset (by simp)) hnd.1

/-- Reversing a list swaps ordered-pair sublists. -/
theorem sublist_pair_reverse {α : Type} (l : List α) (a b : α)
    (h : [a, b].Sublist l) : [b, a].Sublist l.reverse :=
  List.reverse_sublist.mpr h

/-- Full correctness of one `dfs(node)` call of `topological_sort` on a
forest, by induction on the fuel (the explicit call stack): the call
appends a block ending the newly visited names, visits `node`, leaves the
unfinished stack untouched, and preserves the children-before-parent
invariant of the result. -/
theorem dfsVisit_spec
    (teams : List TeamSpec) (δ : String → Nat)
    (hnd : (teams.map (fun t => t.name)).Nodup)
    (hδ : ∀ t ∈ teams, ∀ p, t.parent = some p → δ p < δ t.name) :
    ∀ (fuel : Nat) (node : String) (v : Finset String) (r : List String),
      node ∈ teams.map (fun t => t.name) →
      node ∉ v →
      (teams.map (fun t => t.name)).length ≤ fuel + v.card →
      DfsState teams v r →
      DfsStack teams node v r →
      ∃ v2 r2 b, dfsVisit (childrenOf teams) fuel node (v, r) = (v2, r2) ∧
        r2 = r ++ b ∧ node ∈ b ∧ (∀ x ∈ b, x ∉ v) ∧
        (∀ x, x ∈ v2 ↔ (x ∈ v ∨ x ∈ b)) ∧
        DfsState teams v2 r2 ∧
        (∀ x ∈ v2, x ∉ r2 → (x ∈ v ∧ x ∉ r)) := by
  intro fuel
  induction fuel with
  | zero =>
      intro node v r hnode hnv hfuel hst _
      exfalso
      have hsub : v ⊆ (teams.map (fun t => t.name)).toFinset.erase node := by
        intro x hx
        rw [Finset.mem_erase]
        refine ⟨fun hxn => hnv (hxn ▸ hx), List.mem_toFinset.mpr (hst.2.2.1 x hx)⟩
      have hcard := Finset.card_le_card hsub
      rw [Finset.card_erase_of_mem (List.mem_toFinset.mpr hnode),
        List.toFinset_card_of_nodup hnd] at hcard
      have hpos : 0 < (teams.map (fun t => t.name)).length :=
        List.length_pos_of_mem hnode
      omega
  | succ f ih =>
      intro node v r hnode hnv hfuel hst hstack
      have hch : ∀ c ∈ childrenOf teams node, parentOf teams c = some node :=
        fun c hc => (childrenOf_iff teams hnd node c).mp hc
      suffices hloop : ∀ (cs : List String), (∀ c ∈ cs, parentOf teams c = some node) →
          ∀ (v1 : Finset String) (r1 : List String),
          DfsState teams v1 r1 →
          node ∈ v1 → node ∉ r1 →
          (teams.map (fun t => t.name)).length ≤ f + v1.card →
          (∀ x ∈ v1, x ∉ r1 → (x = node ∨ strictAnc teams node x)) →
          ∃ v2 r2 b2,
            dfsChildren (fun c s => dfsVisit (childrenOf teams) f c s) cs (v1, r1) = (v2, r2) ∧
            r2 = r1 ++ b2 ∧ (∀ x ∈ b2, x ∉ v1) ∧
            (∀ x, x ∈ v2 ↔ (x ∈ v1 ∨ x ∈ b2)) ∧
            DfsState teams v2 r2 ∧
            node ∈ v2 ∧ node ∉ r2 ∧
            (∀ x ∈ v2, x ∉ r2 → (x = node ∨ strictAnc teams node x)) ∧
            (∀ x ∈ v2, x ∉ r2 → (x ∈ v1 ∧ x ∉ r1)) ∧
            (∀ c ∈ cs, c ∈ v2) by
        obtain ⟨v2, r2, b2, heq, hr2, hb2, hv2iff, hst2, hnodev2, hnoder2, hshape2, hpres2, hcs2⟩ :=
          hloop (childrenOf teams node) hch (insert node v) r
            ⟨fun x hx => Finset.mem_insert_of_mem (hst.1 x hx),
             hst.2.1,
             fun x hx => by
               rcases Finset.mem_insert.mp hx with h | h
               · rw [h]; exact hnode
               · exact hst.2.2.1 x h,
             hst.2.2.2⟩
            (Finset.mem_insert_self node v)
            (fun hr => hnv (hst.1 node hr))
            (by rw [Finset.card_insert_of_not_mem hnv]; omega)
            (fun x hx hxr => by
              rcases Finset.mem_insert.mp hx with h | h
              · exact Or.inl h
              · exact Or.inr (hstack x h hxr))
        refine ⟨v2, r2 ++ [node], b2 ++ [node], ?_, ?_, ?_, ?_, ?_, ?_, ?_⟩
        · simp only [dfsVisit]
          rw [heq]
        · rw [hr2, List.append_assoc]
        · simp
        · intro x hx
          rcases List.mem_append.mp hx with hxb | hxn
          · intro hxv
            exact hb2 x hxb (Finset.mem_insert_of_mem hxv)
          · have hxe : x = node := by simpa using hxn
            rw [hxe]
            exact hnv
        · intro x
          rw [hv2iff x]
          constructor
          · rintro (hxv | hxb)
            · rcases Finset.mem_insert.mp hxv with h | h
              · exact Or.inr (List.mem_append.mpr (Or.inr (by simp [h])))
              · exact Or.inl h
            · exact Or.inr (List.mem_append.mpr (Or.inl hxb))
          · rintro (hxv | hxb)
            · exact Or.inl (Finset.mem_insert_of_mem hxv)
            · rcases List.mem_append.mp hxb with h | h
              · exact Or.inr h
              · exact Or.inl (Finset.mem_insert.mpr (Or.inl (by simpa using h)))
        · refine ⟨?_, ?_, hst2.2.2.1, ?_⟩
          · intro x hx
            rcases List.mem_append.mp hx with h | h
            · exact hst2.1 x h
            · have hxe : x = node := by simpa using h
              rw [hxe]
              exact hnodev2
          · rw [List.nodup_append]
            refine ⟨hst2.2.1, List.nodup_singleton node, ?_⟩
            intro a ha hb
            have hae : a = node := by simpa using hb
            exact hnoder2 (hae ▸ ha)
          · intro x c hpc hx
            rcases List.mem_append.mp hx with hxr2 | hxn
            · exact (hst2.2.2.2 x c hpc hxr2).trans (List.sublist_append_left r2 [node])
            · have hxe : x = node := by simpa using hxn
              subst hxe
              have hcv2 : c ∈ v2 := hcs2 c ((childrenOf_iff teams hnd x c).mpr hpc)
              have hcr2 : c ∈ r2 := by
                by_contra hcr
                rcases hshape2 c hcv2 hcr with hceq | hanc
                · rw [hceq] at hpc
                  exact absurd (parentOf_delta teams δ hδ _ _ hpc) (Nat.lt_irrefl _)
                · have h1 := anc_delta teams δ hδ _ _ hanc
                  have h2 := parentOf_delta teams δ hδ _ _ hpc
                  omega
              exact List.Sublist.append (List.singleton_sublist.mpr hcr2)
                (List.Sublist.refl [x])
        · intro x hxv2 hxr
          have hx1 : x ∉ r2 := fun hh => hxr (List.mem_append.mpr (Or.inl hh))
          have hx2 : x ≠ node := fun hh => hxr (List.mem_append.mpr (Or.inr (by simp [hh])))
          obtain ⟨hxv1, hxr1⟩ := hpres2 x hxv2 hx1
          rcases Finset.mem_insert.mp hxv1 with h | h
          · exact absurd h hx2
          · exact ⟨h, hxr1⟩
      intro cs
      induction cs with
      | nil =>
          intro _ v1 r1 hst1 hnv1 hnr1 hfuel1 hshape1
          exact ⟨v1, r1, [], rfl, by simp, by simp, fun x => by simp, hst1, hnv1, hnr1,
            hshape1, fun x hx hxr => ⟨hx, hxr⟩, by simp⟩
      | cons c cs' ihcs =>
          intro hcs v1 r1 hst1 hnv1 hnr1 hfuel1 hshape1
          have hpc : parentOf teams c = some node := hcs c (List.mem_cons_self _ _)
          by_cases hcv : c ∈ v1
          · have hstep : dfsChildren (fun c s => dfsVisit (childrenOf teams) f c s)
                (c :: cs') (v1, r1) =
                dfsChildren (fun c s => dfsVisit (childrenOf teams) f c s) cs' (v1, r1) := by
              simp only [dfsChildren]
              rw [if_pos hcv]
            obtain ⟨v2, r2, b2, heq, hr2, hb2, hv2iff, hst2, hnodev2, hnoder2, hshape2,
              hpres2, hcs2⟩ :=
              ihcs (fun x hx => hcs x (List.mem_cons_of_mem c hx)) v1 r1 hst1 hnv1 hnr1
                hfuel1 hshape1
            refine ⟨v2, r2, b2, hstep.trans heq, hr2, hb2, hv2iff, hst2, hnodev2, hnoder2,
              hshape2, hpres2, ?_⟩
            intro x hx
            rcases List.mem_cons.mp hx with h | h
            · rw [h]
              exact (hv2iff c).mpr (Or.inl hcv)
            · exact hcs2 x h
          · have hcname : c ∈ teams.map (fun t => t.name) :=
              parentOf_mem_names teams c node hpc
            have hstackc : DfsStack teams c v1 r1 := by
              intro x hx hxr
              rcases hshape1 x hx hxr with h | h
              · rw [h]
                exact Relation.TransGen.single hpc
              · exact Relation.TransGen.head hpc h
            obtain ⟨w, s, d, heqc, hs, hcind, hdnv1, hwiff, hstw, hpresw⟩ :=
              ih c v1 r1 hcname hcv hfuel1 hst1 hstackc
            have hnodew : node ∈ w := (hwiff node).mpr (Or.inl hnv1)
            have hnodesw : node ∉ s := by
              rw [hs]
              intro hh
              rcases List.mem_append.mp hh with h | h
              · exact hnr1 h
              · exact absurd hnv1 (hdnv1 node h)
            have hfuelw : (teams.map (fun t => t.name)).length ≤ f + w.card := by
              have hsub : v1 ⊆ w := fun x hx => (hwiff x).mpr (Or.inl hx)
              have := Finset.card_le_card hsub
              omega
            have hshapew : ∀ x ∈ w, x ∉ s → (x = node ∨ strictAnc teams node x) := by
              intro x hx hxr
              obtain ⟨hxv1, hxr1⟩ := hpresw x hx hxr
              exact hshape1 x hxv1 hxr1
            obtain ⟨v2, r2, b2', heq2, hr2, hb2', hv2iff, hst2, hnodev2, hnoder2, hshape2,
              hpres2, hcs2⟩ :=
              ihcs (fun x hx => hcs x (List.mem_cons_of_mem c hx)) w s hstw hnodew
                hnodesw hfuelw hshapew
            refine ⟨v2, r2, d ++ b2', ?_, ?_, ?_, ?_, hst2, hnodev2, hnoder2, hshape2,
              ?_, ?_⟩
            · have hstep : dfsChildren (fun c s => dfsVisit (childrenOf teams) f c s)
                  (c :: cs') (v1, r1) =
                  dfsChildren (fun c s => dfsVisit (childrenOf teams) f c s) cs' (w, s) := by
                simp only [dfsChildren]
                rw [if_neg hcv, heqc]
              exact hstep.trans heq2
            · rw [hr2, hs, List.append_assoc]
            · intro x hx
              rcases List.mem_append.mp hx with h | h
              · exact hdnv1 x h
              · intro hxv1
                exact hb2' x h ((hwiff x).mpr (Or.inl hxv1))
            · intro x
              rw [hv2iff x, hwiff x]
              constructor
              · rintro ((h | h) | h)
                · exact Or.inl h
                · exact Or.inr (List.mem_append.mpr (Or.inl h))
                · exact Or.inr (List.mem_append.mpr (Or.inr h))
              · rintro (h | h)
                · exact Or.inl (Or.inl h)
                · rcases List.mem_append.mp h with h | h
                  · exact Or.inl (Or.inr h)
                  · exact Or.inr h
            · intro x hx hxr
              obtain ⟨hxw, hxs⟩ := hpres2 x hx hxr
              exact hpresw x hxw hxs
            · intro x hx
              rcases List.mem_cons.mp hx with h | h
              · rw [h]
                exact (hv2iff c).mpr (Or.inl ((hwiff c).mpr (Or.inr hcind)))
              · exact hcs2 x h

/-- Claim C3: on a forest (duplicate-free names, parents configured, a
rank `δ` strictly decreasing toward roots), `topological_sort` succeeds
and returns a sequence that contains every team name exactly once
(a permutation of the names) in which every strict ancestor of an entity
occurs strictly before it. -/
theorem topological_sort_spec
    (teams : List TeamSpec)
    (hnd : (teams.map (fun t => t.name)).Nodup)
    (hclosed : ∀ t ∈ teams, ∀ p, t.parent = some p → p ∈ teams.map (fun t => t.name))
    (δ : String → Nat)
    (hδ : ∀ t ∈ teams, ∀ p, t.parent = some p → δ p < δ t.name) :
    ∃ out, topological_sort teams = Except.ok out ∧
      out.Perm (teams.map (fun t => t.name)) ∧
      (∀ a b, strictAnc teams a b → [b, a].Sublist out) := by
  have hguard : teams.all (fun t => match t.parent with
      | some p => (teams.map (fun t => t.name)).contains p
      | none => true) = true := by
    rw [List.all_eq_true]
    intro t ht
    cases hp : t.parent with
    | none => rfl
    | some p => exact List.elem_eq_true_of_mem (hclosed t ht p hp)
  suffices hfold : ∀ (ns : List String) (v : Finset String) (r : List String),
      (∀ n ∈ ns, n ∈ teams.map (fun t => t.name)) →
      DfsState teams v r →
      (∀ x ∈ v, x ∈ r) →
      ∃ v2 r2, List.foldl (fun st n => if n ∈ st.1 then st
          else dfsVisit (childrenOf teams) teams.length n st) (v, r) ns = (v2, r2) ∧
        DfsState teams v2 r2 ∧ (∀ x ∈ v2, x ∈ r2) ∧ (∀ n ∈ ns, n ∈ v2) ∧
        (∀ x ∈ v, x ∈ v2) by
    obtain ⟨v2, r2, heq, hst2, hvr2, hns, -⟩ :=
      hfold (teams.map (fun t => t.name)) ∅ [] (fun n hn => hn)
        ⟨by simp, List.nodup_nil, by simp, by simp⟩ (by simp)
    refine ⟨r2.reverse, ?_, ?_, ?_⟩
    · simp only [topological_sort]
      rw [if_pos hguard, heq]
    · have hmemiff : ∀ a, a ∈ r2 ↔ a ∈ teams.map (fun t => t.name) := by
        intro a
        constructor
        · intro ha
          exact hst2.2.2.1 a (hst2.1 a ha)
        · intro ha
          exact hvr2 a (hns a ha)
      have hperm : r2.Perm (teams.map (fun t => t.name)) :=
        (List.perm_ext_iff_of_nodup hst2.2.1 hnd).mpr hmemiff
      exact (List.reverse_perm r2).trans hperm
    · have hin : ∀ a b, strictAnc teams a b → [a, b].Sublist r2 := by
        intro a b hab
        unfold strictAnc at hab
        induction hab with
        | single h =>
            have hbmem := hvr2 _ (hns _ (parentOf_closed teams hclosed _ _ h))
            exact hst2.2.2.2 _ _ h hbmem
        | tail hab' hstep ihab =>
            have hbmem := hvr2 _ (hns _ (parentOf_closed teams hclosed _ _ hstep))
            have hpair := hst2.2.2.2 _ _ hstep hbmem
            exact sublist_pair_trans r2 a _ _ hst2.2.1 ihab hpair
      intro a b hanc
      exact sublist_pair_reverse r2 _ _ (hin a b hanc)
  intro ns
  induction ns with
  | nil =>
      intro v r _ hst hvr
      exact ⟨v, r, rfl, hst, hvr, by simp, fun x hx => hx⟩
  | cons n ns' ihns =>
      intro v r hnames hst hvr
      by_cases hnv : n ∈ v
      · have hstep : List.foldl (fun st n => if n ∈ st.1 then st
            else dfsVisit (childrenOf teams) teams.length n st) (v, r) (n :: ns') =
            List.foldl (fun st n => if n ∈ st.1 then st
            else dfsVisit (childrenOf teams) teams.length n st) (v, r) ns' := by
          rw [List.foldl_cons]
          congr 1
          simp [hnv]
        obtain ⟨v2, r2, heq, hst2, hvr2, hns2, hmono⟩ :=
          ihns v r (fun x hx => hnames x (List.mem_cons_of_mem n hx)) hst hvr
        refine ⟨v2, r2, hstep.trans heq, hst2, hvr2, ?_, hmono⟩
        intro x hx
        rcases List.mem_cons.mp hx with h | h
        · rw [h]
          exact hmono n hnv
        · exact hns2 x h
      · have hcard : (teams.map (fun t => t.name)).length ≤ teams.length + v.card := by
          rw [List.length_map]
          omega
        have hstack : DfsStack teams n v r := by
          intro x hx hxr
          exact absurd (hvr x hx) hxr
        obtain ⟨w, s, b, heqn, hsb, hnb, hbnv, hwiff, hstw, hpresw⟩ :=
          dfsVisit_spec teams δ hnd hδ teams.length n v r
            (hnames n (List.mem_cons_self _ _)) hnv hcard hst hstack
        have hvrw : ∀ x ∈ w, x ∈ s := by
          intro x hx
          by_contra hxr
          obtain ⟨hxv, hxr1⟩ := hpresw x hx hxr
          exact hxr1 (hvr x hxv)
        obtain ⟨v2, r2, heq2, hst2, hvr2, hns2, hmono2⟩ :=
          ihns w s (fun x hx => hnames x (List.mem_cons_of_mem n hx)) hstw hvrw
        refine ⟨v2, r2, ?_, hst2, hvr2, ?_, ?_⟩
        · have hstep : List.foldl (fun st n => if n ∈ st.1 then st
              else dfsVisit (childrenOf teams) teams.length n st) (v, r) (n :: ns') =
              List.foldl (fun st n => if n ∈ st.1 then st
              else dfsVisit (childrenOf teams) teams.length n st) (w, s) ns' := by
            rw [List.foldl_cons]
            congr 1
            simp only [hnv]
            rw [if_neg ?_]
            · exact heqn
            · exact not_false
          exact hstep.trans heq2
        · intro x hx
          rcases List.mem_cons.mp hx with h | h
          · rw [h]
            exact hmono2 n ((hwiff n).mpr (Or.inr hnb))
          · exact hns2 x h
        · intro x hx
          exact hmono2 x ((hwiff x).mpr (Or.inl hx))

/-- Witness for C3 at the concrete chain configuration `root → mid → X`. -/
theorem topological_sort_spec_witness :
    ∃ out, topological_sort dictChain = Except.ok out ∧
      out.Perm (dictChain.map (fun t => t.name)) ∧
      (∀ a b, strictAnc dictChain a b → [b, a].Sublist out) :=
  topological_sort_spec dictChain (by decide)
    (by
      intro t ht p hp
      fin_cases ht <;> simp_all <;> (subst hp; decide))
    (fun n => if n = ("root") then 0 else if n = ("mid") then 1 else 2)
    (by
      intro t ht p hp
      fin_cases ht <;> simp_all <;> (subst hp; decide))

end GhManager
